import Mathlib

/-!
Verification of the AVL-tree core (`Node`, `Tree`) of the priority-finder
repository.

The Go code mutates a pointer structure (`*Node` with `Value`, `Left`,
`Right`, `bal` fields).  We embed it shallowly:

* `NTree` models the `*Node` pointer type: `NTree.nil` is the nil pointer,
  `NTree.node v l r b` a node with value `v`, children `l`, `r` and balance
  factor `b`.
* Each Go method becomes a function that returns the updated subtree.  The
  rotation methods take a `(parent, child)` pair in Go only so that the
  parent's child pointer can be redirected at the new subtree root; here the
  rotation returns the new subtree root and the caller reattaches it, which
  is exactly what the pointer redirection achieves (including the
  `fakeParent` trick of `Tree.rebalance`, whose read-back of
  `fakeParent.Left` is this return value).
* A nil-pointer dereference (a Go panic) is modelled as `Option.none`; every
  place the Go code would dereference a possibly-nil pointer is an explicit
  pattern match whose nil case yields `none`.
-/

namespace AVL

inductive NTree where
  | nil : NTree
  | node (Value : String) (Left : NTree) (Right : NTree) (bal : Int) : NTree
deriving DecidableEq, Repr

/-- Balance factor of the node a (possibly nil) pointer designates; the Go
code only reads `bal` through non-nil pointers, the nil case is a default. -/
def NTree.bal : NTree → Int
  | .nil => 0
  | .node _ _ _ b => b

/-- The `Left` child pointer (nil pointer on a nil receiver). -/
def NTree.left : NTree → NTree
  | .nil => .nil
  | .node _ l _ _ => l

/-- The `Right` child pointer (nil pointer on a nil receiver). -/
def NTree.right : NTree → NTree
  | .nil => .nil
  | .node _ _ r _ => r

/-- Assignment `n.bal = b` of the Go code (the receiver is never nil there). -/
def NTree.setBal : NTree → Int → NTree
  | .nil, _ => .nil
  | .node v l r _, b => .node v l r b

/-- `rotateLeft`: `r := c.Right; c.Right = r.Left; r.Left = c; c.bal = 0;
r.bal = 0`, the parent's pointer to `c` now designating `r`.  When
`c.Right` is nil the statement `c.Right = r.Left` dereferences nil. -/
def NTree.rotateLeft : NTree → Option NTree
  | .node v l (.node rv rl rr _) _ => some (.node rv (.node v l rl 0) rr 0)
  | _ => none

/-- `rotateRight`, the mirrored version of `rotateLeft`. -/
def NTree.rotateRight : NTree → Option NTree
  | .node v (.node lv ll lr _) r _ => some (.node lv ll (.node v lr r 0) 0)
  | _ => none

/-- `rotateLeftRight`: `c.Left.Right.bal = -1; c.rotateLeft(c.Left);
c.Left.bal = -1; n.rotateRight(c)`.  The first statement dereferences
`c.Left` and `c.Left.Right`. -/
def NTree.rotateLeftRight : NTree → Option NTree
  | .node v (.node lv ll (.node lrv lrl lrr _) lb) r b => do
    let nl ← NTree.rotateLeft (.node lv ll (.node lrv lrl lrr (-1)) lb)
    NTree.rotateRight (.node v (nl.setBal (-1)) r b)
  | _ => none

/-- `rotateRightLeft`: `c.Right.Left.bal = 1; c.rotateRight(c.Right);
c.Right.bal = 1; n.rotateLeft(c)`. -/
def NTree.rotateRightLeft : NTree → Option NTree
  | .node v l (.node rv (.node rlv rll rlr _) rr rb) b => do
    let nr ← NTree.rotateRight (.node rv (.node rlv rll rlr 1) rr rb)
    NTree.rotateLeft (.node v l (nr.setBal 1) b)
  | _ => none

/-- `rebalance(n, c)`: the four-way switch on `(c.bal, overweight child's
bal)`.  Go's `switch` evaluates the case conditions in order, so with
`c.bal == -2` the condition `c.Left.bal == -1` dereferences `c.Left` (nil
case: panic, i.e. `none`); if no case matches the switch falls through and
the tree is left unchanged. -/
def NTree.rebalance : NTree → Option NTree
  | .nil => none
  | .node v l r b =>
    if b = -2 then
      match l with
      | .nil => none
      | .node _ _ _ lb =>
        if lb = -1 then NTree.rotateRight (.node v l r b)
        else if lb = 1 then NTree.rotateLeftRight (.node v l r b)
        else some (.node v l r b)
    else if b = 2 then
      match r with
      | .nil => none
      | .node _ _ _ rb =>
        if rb = 1 then NTree.rotateLeft (.node v l r b)
        else if rb = -1 then NTree.rotateRightLeft (.node v l r b)
        else some (.node v l r b)
    else some (.node v l r b)

/-- `Node.Insert(value, less)`: returns the updated subtree together with
the boolean result `n.bal != 0`.  The receiver is never nil in the Go
program; a nil receiver would be a panic (`none`). -/
def NTree.Insert (less : String → String → Bool) : NTree → String → Option (NTree × Bool)
  | .nil, _ => none
  | .node v l r b, value =>
    if less value v then
      match l with
      | .nil =>
        let n1 : NTree := .node v (.node value .nil .nil 0) r (if r = .nil then -1 else 0)
        some (n1, n1.bal != 0)
      | .node _ _ _ _ => do
        let (l1, grew) ← NTree.Insert less l value
        let n1 ←
          if grew then
            if l1.bal < -1 ∨ l1.bal > 1 then do
              let nl ← NTree.rebalance l1
              pure (NTree.node v nl r b)
            else pure (NTree.node v l1 r (b - 1))
          else pure (NTree.node v l1 r b)
        pure (n1, n1.bal != 0)
    else
      match r with
      | .nil =>
        let n1 : NTree := .node v l (.node value .nil .nil 0) (if l = .nil then 1 else 0)
        some (n1, n1.bal != 0)
      | .node _ _ _ _ => do
        let (r1, grew) ← NTree.Insert less r value
        let n1 ←
          if grew then
            if r1.bal < -1 ∨ r1.bal > 1 then do
              let nr ← NTree.rebalance r1
              pure (NTree.node v l nr b)
            else pure (NTree.node v l r1 (b + 1))
          else pure (NTree.node v l r1 b)
        pure (n1, n1.bal != 0)

/-- The `Tree` type: a single (possibly nil) root pointer. -/
structure Tree where
  Root : NTree
deriving DecidableEq, Repr

/-- `Tree.Insert`: empty tree gets a fresh root, otherwise delegate to
`Node.Insert` and, if the root's balance left the -1..1 range, rebalance
the root through the fake-parent construction (modelled by `NTree.rebalance`
returning the node that ends up in the fake parent's `Left` slot). -/
def Tree.Insert (less : String → String → Bool) (t : Tree) (value : String) : Option Tree :=
  match t.Root with
  | .nil => some ⟨.node value .nil .nil 0⟩
  | .node _ _ _ _ => do
    let (r1, _) ← NTree.Insert less t.Root value
    if r1.bal < -1 ∨ r1.bal > 1 then
      let nr ← NTree.rebalance r1
      pure ⟨nr⟩
    else
      pure ⟨r1⟩

/-- `Tree.Traverse(n, f)`: in-order walk (left, self, right); the visitor's
call sequence is modelled as the list of visited values. -/
def Tree.Traverse (t : Tree) : NTree → List String
  | .nil => []
  | .node v l r _ => Tree.Traverse t l ++ v :: Tree.Traverse t r

/-- Sequential insertion of a list of values, as `main` does. -/
def Tree.InsertAll (less : String → String → Bool) : Tree → List String → Option Tree
  | t, [] => some t
  | t, value :: rest =>
    match Tree.Insert less t value with
    | none => none
    | some t1 => Tree.InsertAll less t1 rest

/-- In-order value list of a subtree (what `Tree.Traverse` visits). -/
def NTree.inorder : NTree → List String
  | .nil => []
  | .node v l r _ => l.inorder ++ v :: r.inorder

/-- Measured height of a subtree (nil has height 0). -/
def NTree.height : NTree → Nat
  | .nil => 0
  | .node _ l r _ => 1 + max l.height r.height

/-- Number of stored nodes. -/
def NTree.size : NTree → Nat
  | .nil => 0
  | .node _ l r _ => l.size + r.size + 1

/-- Checker for the spec's balance invariants: every node has
`bal ∈ {-1,0,1}` and `bal` equals measured height(right) − height(left). -/
def NTree.balOk : NTree → Bool
  | .nil => true
  | .node _ l r b =>
    decide (-1 ≤ b ∧ b ≤ 1) && decide (b = (r.height : Int) - (l.height : Int))
      && l.balOk && r.balOk

/-- Checker for `bal` = measured height(right) − height(left) at every node
(accuracy alone, without the -1..1 range). -/
def NTree.balAccurate : NTree → Bool
  | .nil => true
  | .node _ l r b =>
    decide (b = (r.height : Int) - (l.height : Int)) && l.balAccurate && r.balAccurate

/-- Checker for the spec's BST ordering invariant under `less`. -/
def NTree.bstOk (less : String → String → Bool) : NTree → Bool
  | .nil => true
  | .node v l r _ =>
    l.inorder.all (fun x => less x v) && r.inorder.all (fun y => !(less y v))
      && l.bstOk less && r.bstOk less

/-- Character comparison by code point. -/
def charLess (c d : Char) : Bool := decide (c.toNat < d.toNat)

/-- Lexicographic order on character lists. -/
def lexList : List Char → List Char → Bool
  | [], [] => false
  | [], _ :: _ => true
  | _ :: _, [] => false
  | c :: cs, d :: ds =>
    if charLess c d then true
    else if charLess d c then false
    else lexList cs ds

/-- Lexicographic string `<`, the deterministic predicate of the spec's
end-to-end scenarios. -/
def lexLess (a b : String) : Bool := lexList a.data b.data

/-- Modelled from the spec: "performing rotateLeft on the left child
followed by rotateRight on the root", the reference sequence that the
double-rotation correctness property compares `rebalance` against, stated
with the code's own rotation primitives. -/
def specRotateLeftThenRight : NTree → Option NTree
  | .node v l r b => do
    let l1 ← NTree.rotateLeft l
    NTree.rotateRight (.node v l1 r b)
  | .nil => none

/-! ### Evaluation laws for the rotation primitives -/

theorem rotateLeft_eq (v rv : String) (l rl rr : NTree) (rb b : Int) :
    NTree.rotateLeft (.node v l (.node rv rl rr rb) b)
      = some (.node rv (.node v l rl 0) rr 0) := rfl

theorem rotateRight_eq (v lv : String) (ll lr r : NTree) (lb b : Int) :
    NTree.rotateRight (.node v (.node lv ll lr lb) r b)
      = some (.node lv ll (.node v lr r 0) 0) := rfl

theorem rotateLeftRight_eq (v lv lrv : String) (ll lrl lrr r : NTree) (lrb lb b : Int) :
    NTree.rotateLeftRight (.node v (.node lv ll (.node lrv lrl lrr lrb) lb) r b)
      = some (.node lrv (.node lv ll lrl 0) (.node v lrr r 0) 0) := rfl

theorem rotateRightLeft_eq (v rv rlv : String) (l rll rlr rr : NTree) (rlb rb b : Int) :
    NTree.rotateRightLeft (.node v l (.node rv (.node rlv rll rlr rlb) rr rb) b)
      = some (.node rlv (.node v l rll 0) (.node rv rlr rr 0) 0) := rfl

theorem rotateLeft_some {c c' : NTree} (h : NTree.rotateLeft c = some c') :
    ∃ v l rv rl rr rb b, c = .node v l (.node rv rl rr rb) b ∧
      c' = .node rv (.node v l rl 0) rr 0 := by
  match c with
  | .nil => simp [NTree.rotateLeft] at h
  | .node v l .nil b => simp [NTree.rotateLeft] at h
  | .node v l (.node rv rl rr rb) b =>
    rw [rotateLeft_eq] at h
    exact ⟨v, l, rv, rl, rr, rb, b, rfl, (Option.some_inj.mp h).symm⟩

theorem rotateRight_some {c c' : NTree} (h : NTree.rotateRight c = some c') :
    ∃ v lv ll lr r lb b, c = .node v (.node lv ll lr lb) r b ∧
      c' = .node lv ll (.node v lr r 0) 0 := by
  match c with
  | .nil => simp [NTree.rotateRight] at h
  | .node v .nil r b => simp [NTree.rotateRight] at h
  | .node v (.node lv ll lr lb) r b =>
    rw [rotateRight_eq] at h
    exact ⟨v, lv, ll, lr, r, lb, b, rfl, (Option.some_inj.mp h).symm⟩

theorem rotateLeftRight_some {c c' : NTree} (h : NTree.rotateLeftRight c = some c') :
    ∃ v lv lrv ll lrl lrr r lrb lb b,
      c = .node v (.node lv ll (.node lrv lrl lrr lrb) lb) r b ∧
      c' = .node lrv (.node lv ll lrl 0) (.node v lrr r 0) 0 := by
  match c with
  | .nil => simp [NTree.rotateLeftRight] at h
  | .node v .nil r b => simp [NTree.rotateLeftRight] at h
  | .node v (.node lv ll .nil lb) r b => simp [NTree.rotateLeftRight] at h
  | .node v (.node lv ll (.node lrv lrl lrr lrb) lb) r b =>
    rw [rotateLeftRight_eq] at h
    exact ⟨v, lv, lrv, ll, lrl, lrr, r, lrb, lb, b, rfl, (Option.some_inj.mp h).symm⟩

theorem rotateRightLeft_some {c c' : NTree} (h : NTree.rotateRightLeft c = some c') :
    ∃ v rv rlv l rll rlr rr rlb rb b,
      c = .node v l (.node rv (.node rlv rll rlr rlb) rr rb) b ∧
      c' = .node rlv (.node v l rll 0) (.node rv rlr rr 0) 0 := by
  match c with
  | .nil => simp [NTree.rotateRightLeft] at h
  | .node v l .nil b => simp [NTree.rotateRightLeft] at h
  | .node v l (.node rv .nil rr rb) b => simp [NTree.rotateRightLeft] at h
  | .node v l (.node rv (.node rlv rll rlr rlb) rr rb) b =>
    rw [rotateRightLeft_eq] at h
    exact ⟨v, rv, rlv, l, rll, rlr, rr, rlb, rb, b, rfl, (Option.some_inj.mp h).symm⟩

/-- A successful `rebalance` either leaves the tree unchanged (the switch
fell through) or performed exactly one of the four rotations. -/
theorem rebalance_some {c c' : NTree} (h : NTree.rebalance c = some c') :
    c' = c ∨ NTree.rotateRight c = some c' ∨ NTree.rotateLeft c = some c'
      ∨ NTree.rotateLeftRight c = some c' ∨ NTree.rotateRightLeft c = some c' := by
  match c with
  | .nil => simp [NTree.rebalance] at h
  | .node v l r b =>
    simp only [NTree.rebalance] at h
    by_cases hb2 : b = -2
    · rw [if_pos hb2] at h
      match l with
      | .nil => simp at h
      | .node lv ll lr lb =>
        dsimp only at h
        by_cases hm1 : lb = -1
        · rw [if_pos hm1] at h
          exact Or.inr (Or.inl h)
        · rw [if_neg hm1] at h
          by_cases hp1 : lb = 1
          · rw [if_pos hp1] at h
            exact Or.inr (Or.inr (Or.inr (Or.inl h)))
          · rw [if_neg hp1] at h
            exact Or.inl (Option.some_inj.mp h).symm
    · rw [if_neg hb2] at h
      by_cases hb2' : b = 2
      · rw [if_pos hb2'] at h
        match r with
        | .nil => simp at h
        | .node rv rl rr rb =>
          dsimp only at h
          by_cases hp1 : rb = 1
          · rw [if_pos hp1] at h
            exact Or.inr (Or.inr (Or.inl h))
          · rw [if_neg hp1] at h
            by_cases hm1 : rb = -1
            · rw [if_pos hm1] at h
              exact Or.inr (Or.inr (Or.inr (Or.inr h)))
            · rw [if_neg hm1] at h
              exact Or.inl (Option.some_inj.mp h).symm
      · rw [if_neg hb2'] at h
        exact Or.inl (Option.some_inj.mp h).symm

/-! ### The rotations and `rebalance` preserve the in-order value sequence -/

theorem rotateLeft_inorder {c c' : NTree} (h : NTree.rotateLeft c = some c') :
    c'.inorder = c.inorder := by
  obtain ⟨v, l, rv, rl, rr, rb, b, rfl, rfl⟩ := rotateLeft_some h
  simp [NTree.inorder, List.append_assoc]

theorem rotateRight_inorder {c c' : NTree} (h : NTree.rotateRight c = some c') :
    c'.inorder = c.inorder := by
  obtain ⟨v, lv, ll, lr, r, lb, b, rfl, rfl⟩ := rotateRight_some h
  simp [NTree.inorder, List.append_assoc]

theorem rotateLeftRight_inorder {c c' : NTree} (h : NTree.rotateLeftRight c = some c') :
    c'.inorder = c.inorder := by
  obtain ⟨v, lv, lrv, ll, lrl, lrr, r, lrb, lb, b, rfl, rfl⟩ := rotateLeftRight_some h
  simp [NTree.inorder, List.append_assoc]

theorem rotateRightLeft_inorder {c c' : NTree} (h : NTree.rotateRightLeft c = some c') :
    c'.inorder = c.inorder := by
  obtain ⟨v, rv, rlv, l, rll, rlr, rr, rlb, rb, b, rfl, rfl⟩ := rotateRightLeft_some h
  simp [NTree.inorder, List.append_assoc]

theorem rebalance_inorder {c c' : NTree} (h : NTree.rebalance c = some c') :
    c'.inorder = c.inorder := by
  rcases rebalance_some h with rfl | h | h | h | h
  · rfl
  · exact rotateRight_inorder h
  · exact rotateLeft_inorder h
  · exact rotateLeftRight_inorder h
  · exact rotateRightLeft_inorder h

/-! ### Consistent comparison predicates -/

/-- The spec's contract on the caller-supplied `less`: irreflexive,
transitive, and giving a definite, stable answer on every pair of distinct
values (a strict total order). -/
def Consistent (less : String → String → Bool) : Prop :=
  (∀ a, less a a = false) ∧
  (∀ a b c, less a b = true → less b c = true → less a c = true) ∧
  (∀ a b, a ≠ b → less a b = true ∨ less b a = true)

theorem Consistent.asymm {less : String → String → Bool} (hc : Consistent less)
    {a b : String} (h : less a b = true) : less b a = false := by
  by_contra hn
  have hba : less b a = true := by
    cases hv : less b a
    · exact absurd hv hn
    · rfl
  have := hc.2.1 a b a h hba
  rw [hc.1 a] at this
  exact Bool.false_ne_true this

theorem Consistent.negtrans {less : String → String → Bool} (hc : Consistent less)
    {a c : String} (b : String) (h : less a c = true) :
    less a b = true ∨ less b c = true := by
  by_cases hab : a = b
  · subst hab
    exact Or.inr h
  by_cases h1 : less a b = true
  · exact Or.inl h1
  · have hba : less b a = true := (hc.2.2 a b hab).resolve_left h1
    exact Or.inr (hc.2.1 b a c hba h)

/-- Transitivity of "not less": if `z` is not less than `y` and `y` is not
less than `x`, then `z` is not less than `x`. -/
theorem Consistent.not_lt_trans {less : String → String → Bool} (hc : Consistent less)
    {x y z : String} (h1 : less z y = false) (h2 : less y x = false) :
    less z x = false := by
  cases hv : less z x
  · rfl
  · rcases hc.negtrans y hv with h | h
    · rw [h1] at h
      exact absurd h Bool.false_ne_true
    · rw [h2] at h
      exact absurd h Bool.false_ne_true

/-! ### The ordering invariant maintained by insertion

Rotations move a node from one side of another to the other side, so the
strict "left is less / right is not less" formulation survives only for
duplicate-free trees; the invariant that is actually preserved — and that
makes the in-order sequence non-decreasing — is the weak form below. -/

/-- Weak search-tree invariant: no value in the left subtree is greater
than the node's value, no value in the right subtree is smaller. -/
def WBST (less : String → String → Bool) : NTree → Prop
  | .nil => True
  | .node v l r _ =>
      (∀ x ∈ l.inorder, less v x = false) ∧ (∀ y ∈ r.inorder, less y v = false)
        ∧ WBST less l ∧ WBST less r

theorem WBST_nil (less : String → String → Bool) : WBST less .nil := trivial

theorem WBST_node {less : String → String → Bool} {v : String} {l r : NTree} {b : Int} :
    WBST less (.node v l r b) ↔
      (∀ x ∈ l.inorder, less v x = false) ∧ (∀ y ∈ r.inorder, less y v = false)
        ∧ WBST less l ∧ WBST less r := Iff.rfl

theorem WBST.rotateLeft {less : String → String → Bool} (hc : Consistent less)
    {c c' : NTree} (h : NTree.rotateLeft c = some c') (hw : WBST less c) :
    WBST less c' := by
  obtain ⟨v, l, rv, rl, rr, rb, b, rfl, rfl⟩ := rotateLeft_some h
  obtain ⟨h1, h2, hl, h3, h4, hrl, hrr⟩ := hw
  simp only [NTree.inorder] at h2
  have hrvv : less rv v = false := h2 rv (by simp)
  refine ⟨?_, h4, ⟨h1, ?_, hl, hrl⟩, hrr⟩
  · intro x hx
    simp only [NTree.inorder, List.mem_append, List.mem_cons] at hx
    rcases hx with hx | rfl | hx
    · exact hc.not_lt_trans hrvv (h1 x hx)
    · exact hrvv
    · exact h3 x hx
  · intro y hy
    exact h2 y (by simp [hy])

theorem WBST.rotateRight {less : String → String → Bool} (hc : Consistent less)
    {c c' : NTree} (h : NTree.rotateRight c = some c') (hw : WBST less c) :
    WBST less c' := by
  obtain ⟨v, lv, ll, lr, r, lb, b, rfl, rfl⟩ := rotateRight_some h
  obtain ⟨h1, h2, ⟨h3, h4, hll, hlr⟩, hr⟩ := hw
  simp only [NTree.inorder] at h1
  have hvlv : less v lv = false := h1 lv (by simp)
  refine ⟨h3, ?_, hll, ⟨?_, h2, hlr, hr⟩⟩
  · intro y hy
    simp only [NTree.inorder, List.mem_append, List.mem_cons] at hy
    rcases hy with hy | rfl | hy
    · exact h4 y hy
    · exact hvlv
    · exact hc.not_lt_trans (h2 y hy) hvlv
  · intro x hx
    exact h1 x (by simp [hx])

theorem WBST.rotateLeftRight {less : String → String → Bool} (hc : Consistent less)
    {c c' : NTree} (h : NTree.rotateLeftRight c = some c') (hw : WBST less c) :
    WBST less c' := by
  obtain ⟨v, lv, lrv, ll, lrl, lrr, r, lrb, lb, b, rfl, rfl⟩ := rotateLeftRight_some h
  obtain ⟨h1, h2, ⟨h3, h4, hll, h5, h6, hlrl, hlrr⟩, hr⟩ := hw
  simp only [NTree.inorder] at h1 h4
  have hvlrv : less v lrv = false := h1 lrv (by simp)
  have hlrvlv : less lrv lv = false := h4 lrv (by simp)
  refine ⟨?_, ?_, ⟨h3, ?_, hll, hlrl⟩, ⟨?_, h2, hlrr, hr⟩⟩
  · intro x hx
    simp only [NTree.inorder, List.mem_append, List.mem_cons] at hx
    rcases hx with hx | rfl | hx
    · exact hc.not_lt_trans hlrvlv (h3 x hx)
    · exact hlrvlv
    · exact h5 x hx
  · intro y hy
    simp only [NTree.inorder, List.mem_append, List.mem_cons] at hy
    rcases hy with hy | rfl | hy
    · exact h6 y hy
    · exact hvlrv
    · exact hc.not_lt_trans (h2 y hy) hvlrv
  · intro y hy
    exact h4 y (by simp [hy])
  · intro x hx
    exact h1 x (by simp [hx])

theorem WBST.rotateRightLeft {less : String → String → Bool} (hc : Consistent less)
    {c c' : NTree} (h : NTree.rotateRightLeft c = some c') (hw : WBST less c) :
    WBST less c' := by
  obtain ⟨v, rv, rlv, l, rll, rlr, rr, rlb, rb, b, rfl, rfl⟩ := rotateRightLeft_some h
  obtain ⟨h1, h2, hl, ⟨h3, h4, ⟨h5, h6, hrll, hrlr⟩, hrr⟩⟩ := hw
  simp only [NTree.inorder] at h2 h3
  have hrlvv : less rlv v = false := h2 rlv (by simp)
  have hrvrlv : less rv rlv = false := h3 rlv (by simp)
  refine ⟨?_, ?_, ⟨h1, ?_, hl, hrll⟩, ⟨?_, h4, hrlr, hrr⟩⟩
  · intro x hx
    simp only [NTree.inorder, List.mem_append, List.mem_cons] at hx
    rcases hx with hx | rfl | hx
    · exact hc.not_lt_trans hrlvv (h1 x hx)
    · exact hrlvv
    · exact h5 x hx
  · intro y hy
    simp only [NTree.inorder, List.mem_append, List.mem_cons] at hy
    rcases hy with hy | rfl | hy
    · exact h6 y hy
    · exact hrvrlv
    · exact hc.not_lt_trans (h4 y hy) hrvrlv
  · intro y hy
    exact h2 y (by simp [hy])
  · intro x hx
    exact h3 x (by simp [hx])

theorem WBST.rebalance {less : String → String → Bool} (hc : Consistent less)
    {c c' : NTree} (h : NTree.rebalance c = some c') (hw : WBST less c) :
    WBST less c' := by
  rcases rebalance_some h with rfl | h | h | h | h
  · exact hw
  · exact WBST.rotateRight hc h hw
  · exact WBST.rotateLeft hc h hw
  · exact WBST.rotateLeftRight hc h hw
  · exact WBST.rotateRightLeft hc h hw

theorem inorder_nil : NTree.nil.inorder = [] := rfl

theorem inorder_node (v : String) (l r : NTree) (b : Int) :
    (NTree.node v l r b).inorder = l.inorder ++ v :: r.inorder := rfl

open List in
/-- A successful insertion adds exactly the inserted value to the stored
sequence (as a multiset). -/
theorem Insert_inorder_perm {less : String → String → Bool} {n : NTree} :
    ∀ {value : String} {n1 : NTree} {g : Bool},
      NTree.Insert less n value = some (n1, g) → n1.inorder.Perm (value :: n.inorder) := by
  induction n with
  | nil => intro value n1 g h; simp [NTree.Insert] at h
  | node v l r b ihl ihr =>
    intro value n1 g h
    simp only [NTree.Insert] at h
    by_cases hlt : less value v = true
    · rw [if_pos hlt] at h
      cases l with
      | nil =>
        rw [Option.some_inj] at h
        obtain ⟨rfl, rfl⟩ := Prod.ext_iff.mp h
        simp [NTree.inorder]
      | node lv ll lr lb =>
        cases hi : NTree.Insert less (.node lv ll lr lb) value with
        | none => rw [hi] at h; simp at h
        | some p =>
          obtain ⟨l1, grew⟩ := p
          rw [hi] at h
          have hperm := ihl hi
          cases grew with
          | false =>
            simp at h
            obtain ⟨rfl, rfl⟩ := h
            rw [inorder_node, inorder_node]
            exact hperm.append_right _
          | true =>
            by_cases hrange : l1.bal < -1 ∨ l1.bal > 1
            · cases hrb : NTree.rebalance l1 with
              | none => simp [hrange, hrb] at h
              | some nl =>
                simp [hrange, hrb] at h
                obtain ⟨rfl, rfl⟩ := h
                rw [inorder_node, inorder_node]
                have h2 : nl.inorder.Perm (value :: (NTree.node lv ll lr lb).inorder) := by
                  rw [rebalance_inorder hrb]; exact hperm
                exact h2.append_right _
            · simp [hrange] at h
              obtain ⟨rfl, rfl⟩ := h
              rw [inorder_node, inorder_node]
              exact hperm.append_right _
    · rw [if_neg hlt] at h
      cases r with
      | nil =>
        rw [Option.some_inj] at h
        obtain ⟨rfl, rfl⟩ := Prod.ext_iff.mp h
        rw [inorder_node, inorder_node, inorder_node, inorder_nil]
        calc l.inorder ++ v :: [value]
            = (l.inorder ++ [v]) ++ value :: [] := by simp
          _ ~ value :: ((l.inorder ++ [v]) ++ []) := List.perm_middle
          _ = value :: (l.inorder ++ v :: []) := by simp
      | node rv rl rr rb =>
        cases hi : NTree.Insert less (.node rv rl rr rb) value with
        | none => rw [hi] at h; simp at h
        | some p =>
          obtain ⟨r1, grew⟩ := p
          rw [hi] at h
          have hperm := ihr hi
          have key : ∀ x : NTree, x.inorder = r1.inorder →
              (NTree.node v l x b).inorder.Perm
                (value :: (NTree.node v l (.node rv rl rr rb) b).inorder) := by
            intro x hx
            rw [inorder_node, inorder_node, hx]
            calc l.inorder ++ v :: r1.inorder
                ~ l.inorder ++ v :: value :: (NTree.node rv rl rr rb).inorder :=
                  List.Perm.append_left _ (hperm.cons v)
              _ = (l.inorder ++ [v]) ++ value :: (NTree.node rv rl rr rb).inorder := by simp
              _ ~ value :: ((l.inorder ++ [v]) ++ (NTree.node rv rl rr rb).inorder) :=
                  List.perm_middle
              _ = value :: (l.inorder ++ v :: (NTree.node rv rl rr rb).inorder) := by simp
          cases grew with
          | false =>
            simp at h
            obtain ⟨rfl, rfl⟩ := h
            exact key r1 rfl
          | true =>
            by_cases hrange : r1.bal < -1 ∨ r1.bal > 1
            · cases hrb : NTree.rebalance r1 with
              | none => simp [hrange, hrb] at h
              | some nr =>
                simp [hrange, hrb] at h
                obtain ⟨rfl, rfl⟩ := h
                exact key nr (rebalance_inorder hrb)
            · simp [hrange] at h
              obtain ⟨rfl, rfl⟩ := h
              exact key r1 rfl

/-- A successful insertion under a consistent predicate preserves the weak
search-tree invariant. -/
theorem Insert_WBST {less : String → String → Bool} (hc : Consistent less) {n : NTree} :
    ∀ {value : String} {n1 : NTree} {g : Bool},
      NTree.Insert less n value = some (n1, g) → WBST less n → WBST less n1 := by
  induction n with
  | nil => intro value n1 g h _; simp [NTree.Insert] at h
  | node v l r b ihl ihr =>
    intro value n1 g h hw
    obtain ⟨hw1, hw2, hwl, hwr⟩ := hw
    simp only [NTree.Insert] at h
    by_cases hlt : less value v = true
    · rw [if_pos hlt] at h
      cases l with
      | nil =>
        rw [Option.some_inj] at h
        obtain ⟨rfl, rfl⟩ := Prod.ext_iff.mp h
        refine ⟨?_, hw2, ?_, hwr⟩
        · intro x hx
          rw [inorder_node, inorder_nil] at hx
          simp only [List.nil_append, List.mem_cons, List.not_mem_nil, or_false] at hx
          subst hx
          exact hc.asymm hlt
        · exact ⟨fun x hx => by simp [inorder_nil] at hx,
            fun y hy => by simp [inorder_nil] at hy, trivial, trivial⟩
      | node lv ll lr lb =>
        cases hi : NTree.Insert less (.node lv ll lr lb) value with
        | none => rw [hi] at h; simp at h
        | some p =>
          obtain ⟨l1, grew⟩ := p
          rw [hi] at h
          have hperm := Insert_inorder_perm hi
          have hwl1 : WBST less l1 := ihl hi hwl
          have hcond : ∀ x ∈ l1.inorder, less v x = false := by
            intro x hx
            rcases List.mem_cons.mp (hperm.mem_iff.mp hx) with rfl | hx'
            · exact hc.asymm hlt
            · exact hw1 x hx'
          cases grew with
          | false =>
            simp at h
            obtain ⟨rfl, rfl⟩ := h
            exact ⟨hcond, hw2, hwl1, hwr⟩
          | true =>
            by_cases hrange : l1.bal < -1 ∨ l1.bal > 1
            · cases hrb : NTree.rebalance l1 with
              | none => simp [hrange, hrb] at h
              | some nl =>
                simp [hrange, hrb] at h
                obtain ⟨rfl, rfl⟩ := h
                refine ⟨?_, hw2, WBST.rebalance hc hrb hwl1, hwr⟩
                intro x hx
                rw [rebalance_inorder hrb] at hx
                exact hcond x hx
            · simp [hrange] at h
              obtain ⟨rfl, rfl⟩ := h
              exact ⟨hcond, hw2, hwl1, hwr⟩
    · rw [if_neg hlt] at h
      have hlt' : less value v = false := by
        cases hv : less value v
        · rfl
        · exact absurd hv hlt
      cases r with
      | nil =>
        rw [Option.some_inj] at h
        obtain ⟨rfl, rfl⟩ := Prod.ext_iff.mp h
        refine ⟨hw1, ?_, hwl, ?_⟩
        · intro y hy
          rw [inorder_node, inorder_nil] at hy
          simp only [List.nil_append, List.mem_cons, List.not_mem_nil, or_false] at hy
          subst hy
          exact hlt'
        · exact ⟨fun x hx => by simp [inorder_nil] at hx,
            fun y hy => by simp [inorder_nil] at hy, trivial, trivial⟩
      | node rv rl rr rb =>
        cases hi : NTree.Insert less (.node rv rl rr rb) value with
        | none => rw [hi] at h; simp at h
        | some p =>
          obtain ⟨r1, grew⟩ := p
          rw [hi] at h
          have hperm := Insert_inorder_perm hi
          have hwr1 : WBST less r1 := ihr hi hwr
          have hcond : ∀ y ∈ r1.inorder, less y v = false := by
            intro y hy
            rcases List.mem_cons.mp (hperm.mem_iff.mp hy) with rfl | hy'
            · exact hlt'
            · exact hw2 y hy'
          cases grew with
          | false =>
            simp at h
            obtain ⟨rfl, rfl⟩ := h
            exact ⟨hw1, hcond, hwl, hwr1⟩
          | true =>
            by_cases hrange : r1.bal < -1 ∨ r1.bal > 1
            · cases hrb : NTree.rebalance r1 with
              | none => simp [hrange, hrb] at h
              | some nr =>
                simp [hrange, hrb] at h
                obtain ⟨rfl, rfl⟩ := h
                refine ⟨hw1, ?_, hwl, WBST.rebalance hc hrb hwr1⟩
                intro y hy
                rw [rebalance_inorder hrb] at hy
                exact hcond y hy
            · simp [hrange] at h
              obtain ⟨rfl, rfl⟩ := h
              exact ⟨hw1, hcond, hwl, hwr1⟩

/-- The weak search-tree invariant makes the in-order sequence
non-decreasing: no later value is less than an earlier one. -/
theorem WBST_pairwise {less : String → String → Bool} (hc : Consistent less) :
    ∀ {n : NTree}, WBST less n →
      n.inorder.Pairwise (fun a b => less b a = false) := by
  intro n
  induction n with
  | nil => intro _; simp [inorder_nil]
  | node v l r b ihl ihr =>
    intro hw
    obtain ⟨h1, h2, hwl, hwr⟩ := hw
    rw [inorder_node, List.pairwise_append]
    refine ⟨ihl hwl, ?_, ?_⟩
    · rw [List.pairwise_cons]
      exact ⟨fun y hy => h2 y hy, ihr hwr⟩
    · intro x hx y hy
      rcases List.mem_cons.mp hy with rfl | hy'
      · exact h1 x hx
      · exact hc.not_lt_trans (h2 y hy') (h1 x hx)

/-! ### Lifting to `Tree.Insert` and `Tree.InsertAll` -/

theorem TreeInsert_inorder_perm {less : String → String → Bool} {t : Tree} {value : String}
    {t' : Tree} (h : Tree.Insert less t value = some t') :
    t'.Root.inorder.Perm (value :: t.Root.inorder) := by
  obtain ⟨root⟩ := t
  cases root with
  | nil =>
    simp only [Tree.Insert] at h
    rw [Option.some_inj] at h
    subst h
    simp [NTree.inorder]
  | node rv rl rr rb =>
    simp only [Tree.Insert] at h
    cases hi : NTree.Insert less (.node rv rl rr rb) value with
    | none => rw [hi] at h; simp at h
    | some p =>
      obtain ⟨r1, g⟩ := p
      rw [hi] at h
      have hperm := Insert_inorder_perm hi
      by_cases hrange : r1.bal < -1 ∨ r1.bal > 1
      · cases hrb : NTree.rebalance r1 with
        | none => simp [hrange, hrb] at h
        | some nr =>
          simp [hrange, hrb] at h
          subst h
          show nr.inorder.Perm _
          rw [rebalance_inorder hrb]
          exact hperm
      · simp [hrange] at h
        subst h
        exact hperm

theorem TreeInsert_WBST {less : String → String → Bool} (hc : Consistent less)
    {t : Tree} {value : String} {t' : Tree} (h : Tree.Insert less t value = some t')
    (hw : WBST less t.Root) : WBST less t'.Root := by
  obtain ⟨root⟩ := t
  cases root with
  | nil =>
    simp only [Tree.Insert] at h
    rw [Option.some_inj] at h
    subst h
    exact ⟨fun x hx => by simp [inorder_nil] at hx,
      fun y hy => by simp [inorder_nil] at hy, trivial, trivial⟩
  | node rv rl rr rb =>
    simp only [Tree.Insert] at h
    cases hi : NTree.Insert less (.node rv rl rr rb) value with
    | none => rw [hi] at h; simp at h
    | some p =>
      obtain ⟨r1, g⟩ := p
      rw [hi] at h
      have hw1 : WBST less r1 := Insert_WBST hc hi hw
      by_cases hrange : r1.bal < -1 ∨ r1.bal > 1
      · cases hrb : NTree.rebalance r1 with
        | none => simp [hrange, hrb] at h
        | some nr =>
          simp [hrange, hrb] at h
          subst h
          exact WBST.rebalance hc hrb hw1
      · simp [hrange] at h
        subst h
        exact hw1

open List in
theorem InsertAll_inorder_perm {less : String → String → Bool} :
    ∀ {seq : List String} {t t' : Tree}, Tree.InsertAll less t seq = some t' →
      t'.Root.inorder.Perm (seq ++ t.Root.inorder) := by
  intro seq
  induction seq with
  | nil =>
    intro t t' h
    simp only [Tree.InsertAll] at h
    rw [Option.some_inj] at h
    subst h
    simp [List.Perm.refl]
  | cons value rest ih =>
    intro t t' h
    simp only [Tree.InsertAll] at h
    cases hi : Tree.Insert less t value with
    | none => rw [hi] at h; simp at h
    | some t1 =>
      rw [hi] at h
      calc t'.Root.inorder
          ~ rest ++ t1.Root.inorder := ih h
        _ ~ rest ++ value :: t.Root.inorder :=
            List.Perm.append_left rest (TreeInsert_inorder_perm hi)
        _ ~ value :: (rest ++ t.Root.inorder) := List.perm_middle
        _ = (value :: rest) ++ t.Root.inorder := rfl

theorem InsertAll_WBST {less : String → String → Bool} (hc : Consistent less) :
    ∀ {seq : List String} {t t' : Tree}, Tree.InsertAll less t seq = some t' →
      WBST less t.Root → WBST less t'.Root := by
  intro seq
  induction seq with
  | nil =>
    intro t t' h hw
    simp only [Tree.InsertAll] at h
    rw [Option.some_inj] at h
    subst h
    exact hw
  | cons value rest ih =>
    intro t t' h hw
    simp only [Tree.InsertAll] at h
    cases hi : Tree.Insert less t value with
    | none => rw [hi] at h; simp at h
    | some t1 =>
      rw [hi] at h
      exact ih h (TreeInsert_WBST hc hi hw)

theorem Traverse_eq_inorder (t : Tree) : ∀ n : NTree, t.Traverse n = n.inorder := by
  intro n
  induction n with
  | nil => rfl
  | node v l r b ihl ihr => rw [inorder_node, Tree.Traverse, ihl, ihr]

theorem size_eq_length_inorder : ∀ n : NTree, n.size = n.inorder.length := by
  intro n
  induction n with
  | nil => rfl
  | node v l r b ihl ihr =>
    rw [inorder_node]
    simp [NTree.size, ihl, ihr]
    omega

/-! ### The lexicographic comparison is a consistent predicate -/

theorem charLess_iff {c d : Char} : charLess c d = true ↔ c.toNat < d.toNat := by
  simp [charLess]

theorem char_eq_of_incomparable {c d : Char} (h1 : charLess c d = false)
    (h2 : charLess d c = false) : c = d := by
  rw [← Bool.not_eq_true, charLess_iff] at h1 h2
  have h3 : c.toNat = d.toNat := by omega
  exact Char.eq_of_val_eq (UInt32.ext h3)

theorem lexList_irrefl : ∀ l : List Char, lexList l l = false := by
  intro l
  induction l with
  | nil => rfl
  | cons c cs ih => simp [lexList, charLess, ih]

theorem lexList_trans : ∀ l1 l2 l3 : List Char, lexList l1 l2 = true →
    lexList l2 l3 = true → lexList l1 l3 = true := by
  intro l1
  induction l1 with
  | nil =>
    intro l2 l3 h1 h2
    cases l2 with
    | nil => simp [lexList] at h1
    | cons d ds =>
      cases l3 with
      | nil => simp [lexList] at h2
      | cons e es => rfl
  | cons a as ih =>
    intro l2 l3 h1 h2
    cases l2 with
    | nil => simp [lexList] at h1
    | cons d ds =>
      cases l3 with
      | nil => simp [lexList] at h2
      | cons e es =>
        by_cases had : charLess a d = true
        · have hlt1 : a.toNat < d.toNat := charLess_iff.mp had
          by_cases hde : charLess d e = true
          · have hlt2 : d.toNat < e.toNat := charLess_iff.mp hde
            have : charLess a e = true := charLess_iff.mpr (by omega)
            simp [lexList, this]
          · simp only [lexList, hde, if_false, Bool.if_false_left] at h2
            by_cases hed : charLess e d = true
            · simp [hed] at h2
            · have hd_e : d = e := char_eq_of_incomparable
                (Bool.not_eq_true _ ▸ hde) (Bool.not_eq_true _ ▸ hed)
              subst hd_e
              have : charLess a d = true := had
              simp [lexList, this]
        · simp only [lexList, had, if_false, Bool.if_false_left] at h1
          by_cases hda : charLess d a = true
          · simp [hda] at h1
          · simp only [hda, if_false, Bool.if_false_left] at h1
            have ha_d : a = d := char_eq_of_incomparable
              (Bool.not_eq_true _ ▸ had) (Bool.not_eq_true _ ▸ hda)
            subst ha_d
            by_cases hae : charLess a e = true
            · simp [lexList, hae]
            · simp only [lexList, hae, if_false, Bool.if_false_left] at h2 ⊢
              by_cases hea : charLess e a = true
              · simp [hea] at h2
              · simp only [hea, if_false, Bool.if_false_left] at h2 ⊢
                exact ih ds es h1 h2

theorem lexList_connex : ∀ l1 l2 : List Char, l1 ≠ l2 →
    lexList l1 l2 = true ∨ lexList l2 l1 = true := by
  intro l1
  induction l1 with
  | nil =>
    intro l2 hne
    cases l2 with
    | nil => exact absurd rfl hne
    | cons d ds => exact Or.inl rfl
  | cons a as ih =>
    intro l2 hne
    cases l2 with
    | nil => exact Or.inr rfl
    | cons d ds =>
      by_cases had : charLess a d = true
      · exact Or.inl (by simp [lexList, had])
      · by_cases hda : charLess d a = true
        · exact Or.inr (by simp [lexList, hda])
        · have ha_d : a = d := char_eq_of_incomparable
            (Bool.not_eq_true _ ▸ had) (Bool.not_eq_true _ ▸ hda)
          subst ha_d
          have hne' : as ≠ ds := by
            intro hx
            exact hne (by rw [hx])
          rcases ih ds hne' with h | h
          · exact Or.inl (by simp [lexList, had, h])
          · exact Or.inr (by simp [lexList, had, h])

theorem string_data_inj {a b : String} (h : a.data = b.data) : a = b := by
  cases a
  cases b
  simp only at h
  simp [h]

theorem lexLess_consistent : Consistent lexLess := by
  refine ⟨?_, ?_, ?_⟩
  · intro a
    exact lexList_irrefl a.data
  · intro a b c h1 h2
    exact lexList_trans a.data b.data c.data h1 h2
  · intro a b hne
    exact lexList_connex a.data b.data (fun hd => hne (string_data_inj hd))

/-! ### The claims -/

/-- C1: the claimed invariant — after each completed insertion every node's
`bal` lies in {-1,0,1} and equals measured height(right) − height(left) —
fails on the code.  Under the consistent lexicographic predicate, the six
insertions "a","b","c","e","f","d" all complete, yet in the resulting tree
the node "b" (left child of the root) carries `bal = 0` while its measured
height(right) − height(left) is -1: the final double rotation zeroed the
balance of a node whose subtrees differ in height. -/
theorem c1_balance_invariant_fails :
    Consistent lexLess ∧
    ∃ t : Tree,
      Tree.InsertAll lexLess ⟨.nil⟩ ["a", "b", "c", "e", "f", "d"] = some t ∧
        t.Root.balOk = false ∧
        t.Root.left.bal = 0 ∧
        (t.Root.left.right.height : Int) - (t.Root.left.left.height : Int) = -1 := by
  refine ⟨lexLess_consistent,
    ⟨.node "c" (.node "b" (.node "a" .nil .nil 0) .nil 0)
      (.node "e" (.node "d" .nil .nil 0) (.node "f" .nil .nil 0) 0) 0⟩,
    ?_, ?_, ?_, ?_⟩ <;> decide

/-- C2: the claimed return-value contract of `Node.Insert` — `true` exactly
when the receiver's subtree height increased, coinciding with a nonzero
resulting `bal` — fails on the code.  The receiver below satisfies both AVL
invariants (balance checked by `balOk`, ordering by `bstOk`), its height is
3, and inserting "g" returns `true` (the receiver's old `bal = -1` is still
nonzero) although the height is still 3: no growth happened, the insertion
was absorbed inside the left subtree. -/
theorem c2_growth_report_fails :
    Consistent lexLess ∧
    (NTree.node "m" (.node "f" (.node "c" .nil .nil 0) .nil (-1))
        (.node "t" .nil .nil 0) (-1)).balOk = true ∧
    (NTree.node "m" (.node "f" (.node "c" .nil .nil 0) .nil (-1))
        (.node "t" .nil .nil 0) (-1)).bstOk lexLess = true ∧
    ∃ n1, NTree.Insert lexLess
        (.node "m" (.node "f" (.node "c" .nil .nil 0) .nil (-1))
          (.node "t" .nil .nil 0) (-1)) "g" = some (n1, true) ∧
      n1.height = (NTree.node "m" (.node "f" (.node "c" .nil .nil 0) .nil (-1))
        (.node "t" .nil .nil 0) (-1)).height := by
  refine ⟨lexLess_consistent, by decide, by decide,
    ⟨.node "m" (.node "f" (.node "c" .nil .nil 0) (.node "g" .nil .nil 0) 0)
      (.node "t" .nil .nil 0) (-1), by decide, by decide⟩⟩

/-- C3: for every sequence of insertions under a fixed consistent `less`
that all complete, the in-order traversal `Tree.Traverse` visits the stored
values in non-decreasing order under `less`: no visited value is less than
an earlier one. -/
theorem c3_traversal_sorted (less : String → String → Bool) (hc : Consistent less)
    (seq : List String) (t : Tree)
    (h : Tree.InsertAll less ⟨.nil⟩ seq = some t) :
    (t.Traverse t.Root).Pairwise (fun a b => less b a = false) := by
  rw [Traverse_eq_inorder]
  exact WBST_pairwise hc (InsertAll_WBST hc h trivial)

theorem c3_traversal_sorted_witness :
    Consistent lexLess ∧
    Tree.InsertAll lexLess ⟨.nil⟩ ["b", "a", "c"]
        = some ⟨.node "b" (.node "a" .nil .nil 0) (.node "c" .nil .nil 0) 0⟩ ∧
    ((⟨.node "b" (.node "a" .nil .nil 0) (.node "c" .nil .nil 0) 0⟩ : Tree).Traverse
        (.node "b" (.node "a" .nil .nil 0) (.node "c" .nil .nil 0) 0)).Pairwise
      (fun a b => lexLess b a = false) :=
  ⟨lexLess_consistent, by decide,
    c3_traversal_sorted lexLess lexLess_consistent ["b", "a", "c"] _ (by decide)⟩

/-- C4 counterexample: with `child.bal = -2` and the left child's `bal = 0`
— a pair outside the four table rows — `rebalance` does NOT fail: the
switch falls through and the tree is returned unchanged, refuting the claim
that such situations are treated as a fatal internal consistency failure
rather than silently ignored. -/
theorem c4_out_of_table_not_fatal :
    NTree.rebalance (.node "b" (.node "a" .nil .nil 0) .nil (-2))
        = some (.node "b" (.node "a" .nil .nil 0) .nil (-2)) ∧
      NTree.rebalance (.node "b" (.node "a" .nil .nil 0) .nil (-2)) ≠ none := by
  exact ⟨by decide, by decide⟩

/-- C4 amended: when the pair (child.bal, overweight-side child's bal) is
not one of the four table rows, `rebalance` silently ignores the situation
and leaves the tree unchanged, signalling no failure — except that when
`bal` is ±2 and the overweight-side child is absent, evaluating the case
guard dereferences nil.  The theorem covers the entire silent-no-op
domain. -/
theorem c4_out_of_table_silent_noop (v : String) (l r : NTree) (b : Int)
    (h : (b ≠ -2 ∧ b ≠ 2) ∨ (b = -2 ∧ l ≠ .nil ∧ l.bal ≠ -1 ∧ l.bal ≠ 1)
        ∨ (b = 2 ∧ r ≠ .nil ∧ r.bal ≠ 1 ∧ r.bal ≠ -1)) :
    NTree.rebalance (.node v l r b) = some (.node v l r b) := by
  rcases h with ⟨h1, h2⟩ | ⟨rfl, hn, h1, h2⟩ | ⟨rfl, hn, h1, h2⟩
  · simp [NTree.rebalance, h1, h2]
  · cases l with
    | nil => exact absurd rfl hn
    | node lv ll lr lb =>
      simp only [NTree.bal] at h1 h2
      simp [NTree.rebalance, h1, h2]
  · cases r with
    | nil => exact absurd rfl hn
    | node rv rl rr rb =>
      simp only [NTree.bal] at h1 h2
      simp [NTree.rebalance, h1, h2]

theorem c4_out_of_table_silent_noop_witness :
    (((5 : Int) ≠ -2 ∧ (5 : Int) ≠ 2) ∧
      NTree.rebalance (.node "x" .nil .nil 5) = some (.node "x" .nil .nil 5)) ∧
    (((-2 : Int) = -2 ∧ (NTree.node "a" .nil .nil 0 : NTree) ≠ .nil ∧
        (NTree.node "a" .nil .nil 0).bal ≠ -1 ∧ (NTree.node "a" .nil .nil 0).bal ≠ 1) ∧
      NTree.rebalance (.node "y" (.node "a" .nil .nil 0) .nil (-2))
        = some (.node "y" (.node "a" .nil .nil 0) .nil (-2))) :=
  ⟨⟨by decide, c4_out_of_table_silent_noop "x" .nil .nil 5 (Or.inl (by decide))⟩,
   ⟨by decide, c4_out_of_table_silent_noop "y" (.node "a" .nil .nil 0) .nil (-2)
      (Or.inr (Or.inl (by decide)))⟩⟩

/-- C5: on every left-right-heavy shape — root `bal = -2`, left child
`bal = +1`, all `bal` fields equal to the true height differences —
`rebalance` dispatches to `rotateLeftRight` and produces exactly the tree
obtained by performing `rotateLeft` on the left child and then
`rotateRight` on the root, and the resulting subtree roots all carry
`bal = 0` (the corrective ±1 writes inside `rotateLeftRight` are
overwritten by the primitives' final balance assignments). -/
theorem c5_double_rotation_refines (v lv : String) (ll lr r : NTree)
    (hacc : (NTree.node v (.node lv ll lr 1) r (-2)).balAccurate = true) :
    NTree.rebalance (.node v (.node lv ll lr 1) r (-2))
        = specRotateLeftThenRight (.node v (.node lv ll lr 1) r (-2)) ∧
    ∃ rt, NTree.rebalance (.node v (.node lv ll lr 1) r (-2)) = some rt ∧
      rt.bal = 0 ∧ rt.left.bal = 0 ∧ rt.right.bal = 0 := by
  cases lr with
  | nil =>
    exfalso
    simp [NTree.balAccurate, NTree.height] at hacc
    omega
  | node lrv lrl lrr lrb =>
    refine ⟨rfl, ⟨.node lrv (.node lv ll lrl 0) (.node v lrr r 0) 0, rfl, rfl, rfl, rfl⟩⟩

theorem c5_double_rotation_refines_witness :
    ((NTree.node "c" (.node "a" .nil (.node "b" .nil .nil 0) 1) .nil (-2)).balAccurate
        = true) ∧
    (NTree.rebalance (.node "c" (.node "a" .nil (.node "b" .nil .nil 0) 1) .nil (-2))
        = specRotateLeftThenRight
          (.node "c" (.node "a" .nil (.node "b" .nil .nil 0) 1) .nil (-2)) ∧
      ∃ rt, NTree.rebalance
          (.node "c" (.node "a" .nil (.node "b" .nil .nil 0) 1) .nil (-2)) = some rt ∧
        rt.bal = 0 ∧ rt.left.bal = 0 ∧ rt.right.bal = 0) :=
  ⟨by decide, c5_double_rotation_refines "c" "a" .nil (.node "b" .nil .nil 0) .nil (by decide)⟩

/-- C6: inserting "a","b","c" under lexicographic `<` into an empty tree
produces root "b" with left child "a" and right child "c", all balance
factors 0; inserting "c","b","a" converges to the same tree; in-order
traversal yields ["a","b","c"]. -/
theorem c6_end_to_end_scenarios :
    Tree.InsertAll lexLess ⟨.nil⟩ ["a", "b", "c"]
        = some ⟨.node "b" (.node "a" .nil .nil 0) (.node "c" .nil .nil 0) 0⟩ ∧
    Tree.InsertAll lexLess ⟨.nil⟩ ["c", "b", "a"]
        = some ⟨.node "b" (.node "a" .nil .nil 0) (.node "c" .nil .nil 0) 0⟩ ∧
    Tree.Traverse ⟨.node "b" (.node "a" .nil .nil 0) (.node "c" .nil .nil 0) 0⟩
        (.node "b" (.node "a" .nil .nil 0) (.node "c" .nil .nil 0) 0)
      = ["a", "b", "c"] := by
  exact ⟨by decide, by decide, by decide⟩

/-- C7: the base case of `Node.Insert`.  When the target child slot is
absent a new leaf holding the value is created there, and the receiver's
`bal` becomes -1 (left insertion) or +1 (right insertion) if the other
child is also absent, and 0 if the other child is present. -/
theorem c7_base_case (less : String → String → Bool) (v value : String)
    (l r : NTree) (b : Int) :
    (less value v = true →
      ∃ g, NTree.Insert less (.node v .nil r b) value
          = some (.node v (.node value .nil .nil 0) r (if r = .nil then -1 else 0), g)) ∧
    (less value v = false →
      ∃ g, NTree.Insert less (.node v l .nil b) value
          = some (.node v l (.node value .nil .nil 0) (if l = .nil then 1 else 0), g)) := by
  constructor
  · intro h
    exact ⟨(NTree.node v (.node value .nil .nil 0) r
        (if r = .nil then -1 else 0) : NTree).bal != 0, by simp [NTree.Insert, h]⟩
  · intro h
    exact ⟨(NTree.node v l (.node value .nil .nil 0)
        (if l = .nil then 1 else 0) : NTree).bal != 0, by simp [NTree.Insert, h]⟩

theorem c7_base_case_witness :
    (lexLess "a" "m" = true ∧
      ∃ g, NTree.Insert lexLess (.node "m" .nil .nil 0) "a"
          = some (.node "m" (.node "a" .nil .nil 0) .nil
              (if (.nil : NTree) = .nil then -1 else 0), g)) ∧
    (lexLess "z" "m" = false ∧
      ∃ g, NTree.Insert lexLess (.node "m" (.node "a" .nil .nil 0) .nil 0) "z"
          = some (.node "m" (.node "a" .nil .nil 0) (.node "z" .nil .nil 0)
              (if (NTree.node "a" .nil .nil 0 : NTree) = .nil then 1 else 0), g)) :=
  ⟨⟨by decide, (c7_base_case lexLess "m" "a" .nil .nil 0).1 (by decide)⟩,
   ⟨by decide, (c7_base_case lexLess "m" "z" (.node "a" .nil .nil 0) .nil 0).2 (by decide)⟩⟩

/-- C8: when `less(value, n.Value)` is false — including an exact duplicate
— `Node.Insert` routes the value into the right subtree (the left child
pointer is unchanged); when the right slot is empty a new node is always
created there; and every successful insertion increases the number of
stored nodes by exactly one while the inserted value is stored, so a
duplicate becomes a genuine extra entry, never a replacement. -/
theorem c8_ties_right_duplicates (less : String → String → Bool) (v value : String)
    (l r : NTree) (b : Int) (h : less value v = false) :
    (r = .nil → ∃ g, NTree.Insert less (.node v l r b) value
        = some (.node v l (.node value .nil .nil 0) (if l = .nil then 1 else 0), g)) ∧
    (∀ n1 g, NTree.Insert less (.node v l r b) value = some (n1, g) →
      (∃ r1 b1, n1 = .node v l r1 b1) ∧
        n1.size = (NTree.node v l r b).size + 1 ∧ value ∈ n1.inorder) := by
  have hcond : ¬(less value v = true) := by simp [h]
  constructor
  · rintro rfl
    exact ⟨(NTree.node v l (.node value .nil .nil 0)
        (if l = .nil then 1 else 0) : NTree).bal != 0, by simp [NTree.Insert, h]⟩
  · intro n1 g hin
    have hperm := Insert_inorder_perm hin
    refine ⟨?_, ?_, ?_⟩
    · simp only [NTree.Insert] at hin
      rw [if_neg hcond] at hin
      cases r with
      | nil =>
        rw [Option.some_inj] at hin
        obtain ⟨rfl, rfl⟩ := Prod.ext_iff.mp hin
        exact ⟨_, _, rfl⟩
      | node rv rl rr rb =>
        cases hi : NTree.Insert less (.node rv rl rr rb) value with
        | none => rw [hi] at hin; simp at hin
        | some p =>
          obtain ⟨r1, grew⟩ := p
          rw [hi] at hin
          cases grew with
          | false =>
            simp at hin
            obtain ⟨rfl, rfl⟩ := hin
            exact ⟨_, _, rfl⟩
          | true =>
            by_cases hrange : r1.bal < -1 ∨ r1.bal > 1
            · cases hrb : NTree.rebalance r1 with
              | none => simp [hrange, hrb] at hin
              | some nr =>
                simp [hrange, hrb] at hin
                obtain ⟨rfl, rfl⟩ := hin
                exact ⟨_, _, rfl⟩
            · simp [hrange] at hin
              obtain ⟨rfl, rfl⟩ := hin
              exact ⟨_, _, rfl⟩
    · rw [size_eq_length_inorder, size_eq_length_inorder, hperm.length_eq]
      simp
    · exact hperm.mem_iff.mpr (List.mem_cons_self value _)

theorem c8_ties_right_duplicates_witness :
    (lexLess "b" "b" = false) ∧
    (∃ g, NTree.Insert lexLess (.node "b" (.node "a" .nil .nil 0) .nil (-1)) "b"
        = some (.node "b" (.node "a" .nil .nil 0) (.node "b" .nil .nil 0)
            (if (NTree.node "a" .nil .nil 0 : NTree) = .nil then 1 else 0), g)) ∧
    ((∃ r1 b1, (NTree.node "b" (.node "a" .nil .nil 0) (.node "b" .nil .nil 0) 0 : NTree)
          = .node "b" (.node "a" .nil .nil 0) r1 b1) ∧
      (NTree.node "b" (.node "a" .nil .nil 0) (.node "b" .nil .nil 0) 0).size
          = (NTree.node "b" (.node "a" .nil .nil 0) .nil (-1)).size + 1 ∧
      "b" ∈ (NTree.node "b" (.node "a" .nil .nil 0) (.node "b" .nil .nil 0) 0).inorder) :=
  ⟨by decide,
   (c8_ties_right_duplicates lexLess "b" "b" (.node "a" .nil .nil 0) .nil (-1)
      (by decide)).1 rfl,
   (c8_ties_right_duplicates lexLess "b" "b" (.node "a" .nil .nil 0) .nil (-1)
      (by decide)).2 _ false (by decide)⟩

open List in
/-- C9: inserting the same duplicate-free values in any two orders under a
fixed consistent predicate — whenever both insertion sequences complete —
yields trees with the identical in-order traversal, and that traversal is
sorted (non-decreasing under `less`). -/
theorem c9_permutation_same_traversal (less : String → String → Bool)
    (hc : Consistent less) (s1 s2 : List String) (hnd : s1.Nodup)
    (hperm : s1.Perm s2) (t1 t2 : Tree)
    (h1 : Tree.InsertAll less ⟨.nil⟩ s1 = some t1)
    (h2 : Tree.InsertAll less ⟨.nil⟩ s2 = some t2) :
    t1.Traverse t1.Root = t2.Traverse t2.Root ∧
      (t1.Traverse t1.Root).Pairwise (fun a b => less b a = false) := by
  have e1 : t1.Root.inorder.Perm s1 := by
    simpa [inorder_nil] using InsertAll_inorder_perm h1
  have e2 : t2.Root.inorder.Perm s2 := by
    simpa [inorder_nil] using InsertAll_inorder_perm h2
  have hsort1 := WBST_pairwise hc (InsertAll_WBST hc h1 trivial)
  have hsort2 := WBST_pairwise hc (InsertAll_WBST hc h2 trivial)
  have hanti : ∀ a b : String, less b a = false → less a b = false → a = b := by
    intro a b hab hba
    by_contra hne
    rcases hc.2.2 a b hne with hx | hx
    · rw [hba] at hx
      exact Bool.false_ne_true hx
    · rw [hab] at hx
      exact Bool.false_ne_true hx
  have hp : t1.Root.inorder.Perm t2.Root.inorder := e1.trans (hperm.trans e2.symm)
  have heq : t1.Root.inorder = t2.Root.inorder :=
    @List.eq_of_perm_of_sorted _ _ ⟨hanti⟩ _ _ hp hsort1 hsort2
  rw [Traverse_eq_inorder, Traverse_eq_inorder]
  exact ⟨heq, hsort1⟩

theorem c9_permutation_same_traversal_witness :
    Consistent lexLess ∧ (["a", "b", "c"] : List String).Nodup ∧
    (["a", "b", "c"] : List String).Perm ["c", "b", "a"] ∧
    Tree.InsertAll lexLess ⟨.nil⟩ ["a", "b", "c"]
        = some ⟨.node "b" (.node "a" .nil .nil 0) (.node "c" .nil .nil 0) 0⟩ ∧
    Tree.InsertAll lexLess ⟨.nil⟩ ["c", "b", "a"]
        = some ⟨.node "b" (.node "a" .nil .nil 0) (.node "c" .nil .nil 0) 0⟩ ∧
    ((⟨.node "b" (.node "a" .nil .nil 0) (.node "c" .nil .nil 0) 0⟩ : Tree).Traverse
          (.node "b" (.node "a" .nil .nil 0) (.node "c" .nil .nil 0) 0)
        = (⟨.node "b" (.node "a" .nil .nil 0) (.node "c" .nil .nil 0) 0⟩ : Tree).Traverse
          (.node "b" (.node "a" .nil .nil 0) (.node "c" .nil .nil 0) 0) ∧
      ((⟨.node "b" (.node "a" .nil .nil 0) (.node "c" .nil .nil 0) 0⟩ : Tree).Traverse
          (.node "b" (.node "a" .nil .nil 0) (.node "c" .nil .nil 0) 0)).Pairwise
        (fun a b => lexLess b a = false)) :=
  ⟨lexLess_consistent, by decide, by decide, by decide, by decide,
   c9_permutation_same_traversal lexLess lexLess_consistent ["a", "b", "c"] ["c", "b", "a"]
     (by decide) (by decide) _ _ (by decide) (by decide)⟩

/-- C10: whenever `rebalance` is invoked on a child whose `bal` fields all
equal the true height differences and whose `bal` is ±2 matching one of the
four dispatch rows, every pointer dereference performed by the selected
rotation hits a non-nil node, so rebalancing succeeds without a nil
dereference (never returns the `none` that models a panic). -/
theorem c10_rebalance_no_nil_deref (v : String) (l r : NTree) (b : Int)
    (hacc : (NTree.node v l r b).balAccurate = true)
    (hdisp : (b = -2 ∧ (l.bal = -1 ∨ l.bal = 1)) ∨ (b = 2 ∧ (r.bal = 1 ∨ r.bal = -1))) :
    ∃ c1, NTree.rebalance (.node v l r b) = some c1 := by
  rcases hdisp with ⟨rfl, hl⟩ | ⟨rfl, hr⟩
  · cases l with
    | nil => simp [NTree.bal] at hl
    | node lv ll lr lb =>
      simp only [NTree.bal] at hl
      rcases hl with rfl | rfl
      · exact ⟨_, rfl⟩
      · cases lr with
        | nil =>
          exfalso
          simp [NTree.balAccurate, NTree.height] at hacc
          omega
        | node lrv lrl lrr lrb => exact ⟨_, rfl⟩
  · cases r with
    | nil => simp [NTree.bal] at hr
    | node rv rl rr rb =>
      simp only [NTree.bal] at hr
      rcases hr with rfl | rfl
      · exact ⟨_, rfl⟩
      · cases rl with
        | nil =>
          exfalso
          simp [NTree.balAccurate, NTree.height] at hacc
        | node rlv rll rlr rlb => exact ⟨_, rfl⟩

theorem c10_rebalance_no_nil_deref_witness :
    ((NTree.node "c" (.node "b" (.node "a" .nil .nil 0) .nil (-1)) .nil (-2)).balAccurate
        = true) ∧
    ∃ c1, NTree.rebalance
        (.node "c" (.node "b" (.node "a" .nil .nil 0) .nil (-1)) .nil (-2)) = some c1 :=
  ⟨by decide,
   c10_rebalance_no_nil_deref "c" (.node "b" (.node "a" .nil .nil 0) .nil (-1)) .nil (-2)
     (by decide) (Or.inl ⟨rfl, Or.inl rfl⟩)⟩

end AVL
